import Mathlib

/-!
# Verification of the HiReCS graph builder, parser and hierarchy unwrapping

Shallow embedding, in Lean 4, of the parts of the HiReCS library
(`src/export/cluster.hpp`, `src/export/types.h` with the inlined `types.hpp`,
and the client `.hig` parser) that the checked claims are about.

Modelling conventions, used throughout:

* C++ `float`/`double` link weights are modelled by `ℚ`.  The operations the
  embedded code performs on them (halving, adding, dividing by an integer
  owner count) are exact in `ℚ`; the claims under verification are about this
  algebraic content, not about rounding.
* Node objects are identified by a *serial number* (their creation order),
  playing the role of the C++ object address: `m_idNodes` maps an external id
  to a serial, and a link stores the destination's serial, as the C++ link
  stores the destination `Node*`.
* `std::rand()` is modelled by an explicit stream of pending random values
  (`rnd : List Nat`), consumed exactly where the source calls `rand()`.
* `assert(...)` compiles to nothing in release builds; the model keeps the
  conjunction of all assert conditions seen so far in the flag `assertsOK`,
  so a theorem can speak about an assertion being violated without
  pretending the assertion stops execution.
* `rand() % links.size()` with `links.size() == 0` is an integer remainder
  by zero — undefined behavior.  The operations that can reach it return
  `Option`/a `.ub` error at exactly that point, and theorems about defined
  executions are conditioned on not reaching it.
* An `std::unordered_map` whose values are accumulated shares is modelled by
  its value function (`Nat → ℚ`); a key is "present" exactly when its value
  is nonzero, which coincides with the C++ map's key set on every run in
  which only nonzero shares are inserted (shares are sums of positive
  contributions here).
-/

namespace Hirecs

/-- The sentinel `ID_NONE = numeric_limits<uint32_t>::max()`, the reserved sentinel id
(`src/export/types.h`). -/
def ID_NONE : Nat := 4294967295

/-- Content of one `Node<LinksT>` object: self weight `m_sweight` and the
link vector `links`.  A link is `(dst, weight)` where the first component is
the destination node's serial (the C++ `Node*`).  For an unweighted graph the
C++ `SimpleLink` stores no weight and reads back the constant `1`; the model
stores that constant `1` explicitly. -/
structure GNode where
  sweight : ℚ
  links : List (Nat × ℚ)
deriving Repr, DecidableEq

instance : Inhabited GNode := ⟨⟨0, []⟩⟩

/-- State of a `Graph<WEIGHTED, UNSIGNED>` builder (`src/export/cluster.hpp`):
the node collection `nodes` (a `list<Node>`; we keep `(serial, id)` in
collection order), the content of every node object by serial, the
`m_idNodes` id→serial map (insertion order kept; `emplace` never overwrites),
the flags, and the pending `rand()` stream. -/
structure GraphSt where
  nodes : List (Nat × Nat)
  content : Nat → GNode
  idmap : List (Nat × Nat)
  nextSerial : Nat
  finalized : Bool
  directed : Bool
  shuffle : Bool
  rnd : List Nat
  assertsOK : Bool

/-- Lookup `m_idNodes.find(id)` / `m_idNodes.at(id)`: the serial mapped to `id`. -/
def lookupId (st : GraphSt) (i : Nat) : Option Nat :=
  (st.idmap.find? (fun p => p.1 == i)).map Prod.snd

/-- Replace the content of the node object with serial `s`. -/
def updContent (st : GraphSt) (s : Nat) (f : GNode → GNode) : GraphSt :=
  { st with content := fun t => if t = s then f (st.content t) else st.content t }

/-- Draw the next `rand()` value (0 when the modelled stream is exhausted). -/
def takeR (st : GraphSt) : Nat × GraphSt :=
  (st.rnd.headD 0, { st with rnd := st.rnd.tail })

/-- Model of `InpOperations<SIMPLE>::addLink(src, dst, weight, shuffle)`
(`src/export/cluster.hpp:46-62`): push `(dst, weight)` at the back, or — when
`shuffle` — at position `rand() % src->links.size()`.  `SIMPLE = !WEIGHTED`
drops the weight (the stored `SimpleLink` reads back the constant 1).
`none` models the undefined `rand() % 0` that the shuffle branch evaluates
when the source node has no links yet. -/
def addLinkM (weighted : Bool) (st : GraphSt) (s dstS : Nat) (w : ℚ) :
    Option GraphSt :=
  let entry : Nat × ℚ := (dstS, if weighted then w else 1)
  if st.shuffle = false then
    some (updContent st s (fun n => { n with links := n.links ++ [entry] }))
  else
    let r := (takeR st).1
    let st1 := (takeR st).2
    if (st1.content s).links.length = 0 then
      none
    else
      some (updContent st1 s (fun n =>
        { n with links := n.links.insertIdx (r % n.links.length) entry }))

/-- Model of `acsAddNodeLink<DIRECTED, WEIGHTED>(nd, dst, weight, shuffle)`
(`src/export/cluster.hpp:98-116`), on node serials `snd`/`sdst`.
A self link (`dst == nd`, i.e. the same object) assigns the self weight
`weight * (1 + (!WEIGHTED && !DIRECTED))` — doubled exactly in the
undirected unweighted case — and inserts no arc; the debug assertion
`!dst->selfWeight()` is recorded in `assertsOK`.  Otherwise the undirected
case halves the weight and adds the two arcs `dst→nd` then `nd→dst`, and the
directed case adds the single arc `nd→dst`. -/
def acsAddNodeLinkM (DIRECTED WEIGHTED : Bool) (st : GraphSt) (snd sdst : Nat)
    (w : ℚ) : Option GraphSt :=
  if sdst = snd then
    let st0 := { st with assertsOK := st.assertsOK && ((st.content sdst).sweight == 0) }
    some (updContent st0 sdst (fun n =>
      { n with sweight := w * (1 + (if !WEIGHTED && !DIRECTED then 1 else 0)) }))
  else if DIRECTED = false then
    (addLinkM WEIGHTED st sdst snd (w / 2)).bind (fun st1 =>
      addLinkM WEIGHTED st1 snd sdst (w / 2))
  else
    addLinkM WEIGHTED st snd sdst w

/-- Error kinds raised (or reached) by the builder.  `unknownNode i` is the
`out_of_range` rethrown by `acsAddNodeLinks` naming node id `i`
(UNKNOWN_NODE); `finalizedGraph` is the `domain_error` of
`validateExtension` ("Finalized graph can't be extended"); `invalidInput`
stands for the INVALID_INPUT kind of the spec's taxonomy (the builder itself
never raises it — the parser does); `ub` marks that execution reached the
undefined `rand() % 0` and is not a C++ exception. -/
inductive BErr where
  | unknownNode (id : Nat)
  | finalizedGraph
  | invalidInput
  | ub
deriving Repr, DecidableEq

/-- The loop body of `acsAddNodeLinks` (`src/export/cluster.hpp:133-136`):
for each input link, look its destination id up in `m_idNodes` (`at` throws
`out_of_range`, rethrown naming `dstId != ID_NONE ? dstId : src`) and call
`acsAddNodeLink`. -/
def acsAddNodeLinksGo (DIRECTED WEIGHTED : Bool) (src snd : Nat) :
    GraphSt → List (Nat × ℚ) → Except BErr GraphSt
  | st, [] => .ok st
  | st, ln :: rest =>
    match lookupId st ln.1 with
    | none => .error (.unknownNode (if ln.1 ≠ ID_NONE then ln.1 else src))
    | some sdst =>
      match acsAddNodeLinkM DIRECTED WEIGHTED st snd sdst ln.2 with
      | none => .error .ub
      | some st1 => acsAddNodeLinksGo DIRECTED WEIGHTED src snd st1 rest

/-- Model of `acsAddNodeLinks<DIRECTED, WEIGHTED>(idNodes, src, links, shuffle)`
(`src/export/cluster.hpp:129-143`): resolve `src` (a failed lookup throws
`out_of_range`, rethrown naming `src` since `dstId` is still `ID_NONE`), then
add every link. -/
def acsAddNodeLinksM (DIRECTED WEIGHTED : Bool) (st : GraphSt) (src : Nat)
    (links : List (Nat × ℚ)) : Except BErr GraphSt :=
  match lookupId st src with
  | none => .error (.unknownNode src)
  | some snd => acsAddNodeLinksGo DIRECTED WEIGHTED src snd st links

/-- One step of `acsAddNodes` (`src/export/cluster.hpp:78-85`): create the
node object (`emplace_back`, or `emplace_front` when `iback` is false —
`iback = !shuffle || rand() % 2`), then `idNodes.emplace(id, &node)`, which
keeps the old mapping when `id` is already a key; `ridn.second` is the debug
assert condition "input node is duplicated". -/
def acsAddNode (st : GraphSt) (i : Nat) : GraphSt :=
  let rp := if st.shuffle then takeR st else (1, st)
  let iback := !st.shuffle || rp.1 % 2 != 0
  let st1 := rp.2
  let s := st1.nextSerial
  let nodes := if iback then st1.nodes ++ [(s, i)] else (s, i) :: st1.nodes
  let fresh := st1.idmap.find? (fun p => p.1 == i) |>.isNone
  { st1 with
    nodes := nodes
    content := fun t => if t = s then default else st1.content t
    idmap := if fresh then st1.idmap ++ [(i, s)] else st1.idmap
    nextSerial := s + 1
    assertsOK := st1.assertsOK && fresh }

/-- Model of `acsAddNodes(nodes, idNodes, nodesIds, shuffle)`
(`src/export/cluster.hpp:73-86`). -/
def acsAddNodesM (st : GraphSt) (ids : List Nat) : GraphSt :=
  ids.foldl acsAddNode st

/-- Model of `Graph<WEIGHTED, UNSIGNED>::Graph(nodesNum, shuffle)`
(`src/export/cluster.hpp:184-189`).  ATTENTION, faithful to the source: the
member-initializer list is `m_finalized(false), m_directed(false),
m_shuffle(false)` — the `shuffle` argument is ignored and `m_shuffle` is
always initialized to `false` (only `reinit` assigns `m_shuffle = shuffle`). -/
def GraphMk (nodesNum : Nat) (shuffle : Bool) (rnd : List Nat) : GraphSt :=
  { nodes := []
    content := fun _ => default
    idmap := []
    nextSerial := 0
    finalized := false
    directed := false
    shuffle := false
    rnd := rnd
    assertsOK := true }

/-- Model of `Graph::reinit(nodesNum, shuffle)` (`src/export/cluster.hpp:192-200`):
unlike the constructor, it does assign `m_shuffle = shuffle`. -/
def GraphReinit (st : GraphSt) (nodesNum : Nat) (shuffle : Bool) : GraphSt :=
  { st with
    nodes := []
    idmap := []
    directed := false
    shuffle := shuffle }

/-- Model of `Graph::addNodes(const Ids&)` (`src/export/cluster.hpp:210-214`):
`validateExtension()` throws `domain_error` on a finalized graph, then
`acsAddNodes`. -/
def addNodesM (st : GraphSt) (ids : List Nat) : Except BErr GraphSt :=
  if st.finalized then .error .finalizedGraph
  else .ok (acsAddNodesM st ids)

/-- Model of `Graph::addNodeLinks<DIRECTED>(node, links)`
(`src/export/cluster.hpp:244-249`). -/
def addNodeLinksM (DIRECTED WEIGHTED : Bool) (st : GraphSt) (node : Nat)
    (links : List (Nat × ℚ)) : Except BErr GraphSt :=
  if st.finalized then .error .finalizedGraph
  else acsAddNodeLinksM DIRECTED WEIGHTED { st with directed := st.directed || DIRECTED } node links

/-! ## Basic lemmas about the builder operations -/

/-- Inserting at a position within bounds is a permutation of consing. -/
theorem insertIdx_perm_cons {α : Type} (a : α) :
    ∀ (n : Nat) (l : List α), n ≤ l.length → (l.insertIdx n a).Perm (a :: l)
  | 0, l, _ => by simp
  | n + 1, [], h => by simp at h
  | n + 1, b :: l, h => by
    have ih := insertIdx_perm_cons a n l (Nat.le_of_succ_le_succ h)
    rw [List.insertIdx_succ_cons]
    exact List.Perm.trans (List.Perm.cons b ih) (List.Perm.swap a b l)

/-- What a successful `InpOperations::addLink` does: the one new link joins
the source's link list (at the back, or at the random position), and nothing
else changes. -/
theorem addLinkM_spec (W : Bool) (st st' : GraphSt) (s d : Nat) (w : ℚ)
    (h : addLinkM W st s d w = some st') :
    ((st'.content s).links).Perm ((d, if W then w else 1) :: (st.content s).links)
    ∧ (st'.content s).sweight = (st.content s).sweight
    ∧ (∀ t, t ≠ s → st'.content t = st.content t)
    ∧ st'.idmap = st.idmap ∧ st'.shuffle = st.shuffle
    ∧ st'.assertsOK = st.assertsOK ∧ st'.finalized = st.finalized
    ∧ st'.nodes = st.nodes := by
  unfold addLinkM at h
  by_cases hs : st.shuffle = false
  · simp only [hs, if_true, Option.some.injEq] at h
    subst h
    refine ⟨?_, ?_, ?_, rfl, rfl, rfl, rfl, rfl⟩
    · simp [updContent, List.perm_append_singleton]
    · simp [updContent]
    · intro t ht
      simp [updContent, ht]
  · have hs' : st.shuffle = true := by
      cases hx : st.shuffle
      · exact absurd hx hs
      · rfl
    simp only [hs', Bool.true_eq_false, if_false] at h
    by_cases hlen : ((takeR st).2.content s).links.length = 0
    · rw [if_pos hlen] at h
      exact absurd h (by simp)
    · rw [if_neg hlen] at h
      rw [Option.some.injEq] at h
      subst h
      have hc : (takeR st).2.content = st.content := rfl
      refine ⟨?_, ?_, ?_, rfl, rfl, rfl, rfl, rfl⟩
      · simp only [updContent, if_pos rfl, hc]
        exact insertIdx_perm_cons _ _ _
          (Nat.le_of_lt (Nat.mod_lt _ (Nat.pos_of_ne_zero (by rw [hc] at hlen; exact hlen))))
      · simp [updContent, hc]
      · intro t ht
        simp [updContent, hc, ht]

/-- With shuffling off, `InpOperations::addLink` always succeeds and appends
at the back. -/
theorem addLinkM_noshuffle (W : Bool) (st : GraphSt) (s d : Nat) (w : ℚ)
    (h : st.shuffle = false) :
    addLinkM W st s d w =
      some (updContent st s (fun n =>
        { n with links := n.links ++ [(d, if W then w else 1)] })) := by
  unfold addLinkM
  simp [h]

/-- Frame of `acsAddNodeLink`: a successful call never touches the id map,
the flags or the node collection. -/
theorem acsAddNodeLinkM_frame (D W : Bool) (st st' : GraphSt) (snd sdst : Nat)
    (w : ℚ) (h : acsAddNodeLinkM D W st snd sdst w = some st') :
    st'.idmap = st.idmap ∧ st'.shuffle = st.shuffle
    ∧ st'.finalized = st.finalized ∧ st'.nodes = st.nodes := by
  unfold acsAddNodeLinkM at h
  by_cases he : sdst = snd
  · rw [if_pos he, Option.some.injEq] at h
    subst h
    simp [updContent]
  · rw [if_neg he] at h
    by_cases hd : D = false
    · rw [if_pos hd] at h
      obtain ⟨st1, h1, h2⟩ := Option.bind_eq_some.mp h
      have A := addLinkM_spec W st st1 sdst snd (w / 2) h1
      have B := addLinkM_spec W st1 st' snd sdst (w / 2) h2
      exact ⟨B.2.2.2.1.trans A.2.2.2.1,
        B.2.2.2.2.1.trans A.2.2.2.2.1,
        B.2.2.2.2.2.2.1.trans A.2.2.2.2.2.2.1,
        B.2.2.2.2.2.2.2.trans A.2.2.2.2.2.2.2⟩
    · rw [if_neg hd] at h
      have A := addLinkM_spec W st st' snd sdst w h
      exact ⟨A.2.2.2.1, A.2.2.2.2.1, A.2.2.2.2.2.2.1, A.2.2.2.2.2.2.2⟩

/-- Claim C1.  For a link `(dst, w)` with `dst ≠ src`, a completed
`acsAddNodeLink` (the per-link worker of `AddNodeLinks` and
`AddNodeAndLinks`) inserts, in the undirected case, the two directed arcs
`dst→src` and `src→dst` into the two nodes' link lists, each of weight `w/2`,
and in the directed case exactly the single arc `src→dst` of weight `w`; for
an unweighted graph the stored arc weight is the constant `1` instead.  All
other nodes are untouched.  (Insertion is stated up to permutation because
with shuffling the arc goes to a random position of the list.) -/
theorem hirecs_claim_C1 (D W : Bool) (st st' : GraphSt) (snd sdst : Nat)
    (w : ℚ) (hne : sdst ≠ snd)
    (h : acsAddNodeLinkM D W st snd sdst w = some st') :
    (D = false →
      ((st'.content sdst).links).Perm
        ((snd, if W then w / 2 else 1) :: (st.content sdst).links)
      ∧ ((st'.content snd).links).Perm
        ((sdst, if W then w / 2 else 1) :: (st.content snd).links)
      ∧ ∀ t, t ≠ snd → t ≠ sdst → st'.content t = st.content t)
    ∧ (D = true →
      ((st'.content snd).links).Perm
        ((sdst, if W then w else 1) :: (st.content snd).links)
      ∧ (st'.content sdst) = (st.content sdst)
      ∧ ∀ t, t ≠ snd → st'.content t = st.content t) := by
  unfold acsAddNodeLinkM at h
  rw [if_neg hne] at h
  constructor
  · intro hd
    rw [if_pos hd] at h
    obtain ⟨st1, h1, h2⟩ := Option.bind_eq_some.mp h
    have A := addLinkM_spec W st st1 sdst snd (w / 2) h1
    have B := addLinkM_spec W st1 st' snd sdst (w / 2) h2
    refine ⟨?_, ?_, ?_⟩
    · rw [B.2.2.1 sdst hne]
      exact A.1
    · have hsn : st1.content snd = st.content snd :=
        A.2.2.1 snd (fun hc => hne hc.symm)
      rw [← hsn]
      exact B.1
    · intro t ht hts
      exact (B.2.2.1 t ht).trans (A.2.2.1 t hts)
  · intro hd
    rw [if_neg (by simp [hd])] at h
    have A := addLinkM_spec W st st' snd sdst w h
    refine ⟨A.1, A.2.2.1 sdst hne, fun t ht => A.2.2.1 t ht⟩

/-- Concrete builder state for the witnesses: two nodes, serials 0 and 1,
external ids 10 and 20, no links yet, shuffling off. -/
def stC1 : GraphSt :=
  { nodes := [(0, 10), (1, 20)]
    content := fun _ => default
    idmap := [(10, 0), (20, 1)]
    nextSerial := 2
    finalized := false
    directed := false
    shuffle := false
    rnd := []
    assertsOK := true }

/-- Result of adding the undirected weighted link `10 -(3)- 20` to `stC1`. -/
def stC1r : GraphSt := (acsAddNodeLinkM false true stC1 0 1 3).getD stC1

/-- Witness for C1: on `stC1`, the undirected link of weight 3 from node 0 to
node 1 produces the two arcs of weight `3/2`. -/
theorem hirecs_claim_C1_witness :
    ((stC1r.content 1).links).Perm ((0, (3 : ℚ) / 2) :: (stC1.content 1).links)
    ∧ ((stC1r.content 0).links).Perm ((1, (3 : ℚ) / 2) :: (stC1.content 0).links) := by
  have h := hirecs_claim_C1 false true stC1 stC1r 0 1 3 (by decide) rfl
  have h' := h.1 rfl
  exact ⟨by simpa using h'.1, by simpa using h'.2.1⟩

/-- Claim C4.  A self link (`dst == src`) assigns the self weight — `2·w` in
the undirected unweighted case, exactly `w` otherwise — and inserts no arc
anywhere: the node's link list and every other node are unchanged, and no
random value is drawn. -/
theorem hirecs_claim_C4 (D W : Bool) (st : GraphSt) (s : Nat) (w : ℚ) :
    ∃ st', acsAddNodeLinkM D W st s s w = some st'
      ∧ (st'.content s).sweight = (if W = false ∧ D = false then 2 * w else w)
      ∧ (st'.content s).links = (st.content s).links
      ∧ (∀ t, t ≠ s → st'.content t = st.content t)
      ∧ st'.rnd = st.rnd := by
  have h : acsAddNodeLinkM D W st s s w =
      some (updContent
        { st with assertsOK := st.assertsOK && ((st.content s).sweight == 0) } s
        (fun n => { n with sweight := w * (1 + (if !W && !D then 1 else 0)) })) := by
    unfold acsAddNodeLinkM
    rw [if_pos rfl]
  refine ⟨_, h, ?_, ?_, ?_, rfl⟩
  · simp only [updContent, if_pos rfl]
    cases W <;> cases D <;> simp <;> ring
  · simp [updContent]
  · intro t ht
    simp [updContent, ht]

/-- Claim C10 (refuted safety of the shuffle insertion position).  The
insertion position `rand() % links.size()` is evaluated exactly when
shuffling is on, and `addLink` reaches the undefined remainder-by-zero
(`none`) precisely when the source node's link list is still empty — i.e.
when its very first link is inserted with shuffle enabled. -/
theorem hirecs_claim_C10 (W : Bool) (st : GraphSt) (s d : Nat) (w : ℚ) :
    addLinkM W st s d w = none ↔
      st.shuffle = true ∧ (st.content s).links = [] := by
  unfold addLinkM
  cases hx : st.shuffle
  · simp [hx]
  · have hc : (takeR st).2.content = st.content := rfl
    simp only [hx, Bool.true_eq_false, if_false, hc]
    by_cases hlen : (st.content s).links.length = 0
    · simp [hlen, List.length_eq_zero.mp hlen]
    · rw [if_neg hlen]
      simp only [hx, true_and]
      constructor
      · intro hcon
        exact (Option.some_ne_none _ hcon).elim
      · intro hcon
        exact absurd (List.length_eq_zero.mpr hcon) hlen

/-! ## Lemmas about `acsAddNodeLinks` (claim C6) -/

/-- The id lookup depends on the id map only. -/
theorem lookupId_congr (st st' : GraphSt) (h : st'.idmap = st.idmap) (i : Nat) :
    lookupId st' i = lookupId st i := by
  unfold lookupId
  rw [h]

/-- With shuffling off, `acsAddNodeLink` always completes and keeps the id
map and the flags. -/
theorem acsAddNodeLinkM_noshuffle_ok (D W : Bool) (st : GraphSt)
    (snd sdst : Nat) (w : ℚ) (hsh : st.shuffle = false) :
    ∃ st', acsAddNodeLinkM D W st snd sdst w = some st'
      ∧ st'.shuffle = false ∧ st'.idmap = st.idmap := by
  unfold acsAddNodeLinkM
  by_cases he : sdst = snd
  · rw [if_pos he]
    exact ⟨_, rfl, hsh, rfl⟩
  · rw [if_neg he]
    by_cases hd : D = false
    · rw [if_pos hd]
      rw [addLinkM_noshuffle W st sdst snd (w / 2) hsh]
      have hsh1 : (updContent st sdst (fun n =>
          { n with links := n.links ++ [(snd, if W then w / 2 else 1)] })).shuffle = false := hsh
      rw [Option.some_bind, addLinkM_noshuffle W _ snd sdst (w / 2) hsh1]
      exact ⟨_, rfl, hsh, rfl⟩
    · rw [if_neg hd]
      rw [addLinkM_noshuffle W st snd sdst w hsh]
      exact ⟨_, rfl, hsh, rfl⟩

/-- Success of the `acsAddNodeLinks` loop when every destination id is
mapped (shuffling off). -/
theorem acsAddNodeLinksGo_ok (D W : Bool) (src snd : Nat) :
    ∀ (links : List (Nat × ℚ)) (st : GraphSt), st.shuffle = false →
      (∀ p ∈ links, (lookupId st p.1).isSome = true) →
      ∃ st', acsAddNodeLinksGo D W src snd st links = .ok st'
  | [], st, _, _ => ⟨st, rfl⟩
  | ln :: rest, st, hsh, hall => by
    obtain ⟨sdst, hdst⟩ := Option.isSome_iff_exists.mp (hall ln (by simp))
    obtain ⟨st1, h1, hsh1, hmap1⟩ :=
      acsAddNodeLinkM_noshuffle_ok D W st snd sdst ln.2 hsh
    have hall1 : ∀ p ∈ rest, (lookupId st1 p.1).isSome = true := by
      intro p hp
      rw [lookupId_congr st st1 hmap1]
      exact hall p (by simp [hp])
    obtain ⟨st', hst'⟩ := acsAddNodeLinksGo_ok D W src snd rest st1 hsh1 hall1
    refine ⟨st', ?_⟩
    unfold acsAddNodeLinksGo
    simp only [hdst, h1]
    exact hst'

/-- The `acsAddNodeLinks` loop stops with UNKNOWN_NODE at the first link
whose destination id is not mapped, naming that id. -/
theorem acsAddNodeLinksGo_err (D W : Bool) (src snd : Nat) (d : Nat) (wq : ℚ)
    (l2 : List (Nat × ℚ)) :
    ∀ (l1 : List (Nat × ℚ)) (st : GraphSt), st.shuffle = false →
      (∀ p ∈ l1, (lookupId st p.1).isSome = true) →
      lookupId st d = none →
      acsAddNodeLinksGo D W src snd st (l1 ++ (d, wq) :: l2) =
        .error (.unknownNode (if d ≠ ID_NONE then d else src))
  | [], st, _, _, hmiss => by
    rw [List.nil_append]
    unfold acsAddNodeLinksGo
    simp only [hmiss]
  | ln :: l1, st, hsh, hall, hmiss => by
    obtain ⟨sdst, hdst⟩ := Option.isSome_iff_exists.mp (hall ln (by simp))
    obtain ⟨st1, h1, hsh1, hmap1⟩ :=
      acsAddNodeLinkM_noshuffle_ok D W st snd sdst ln.2 hsh
    have hall1 : ∀ p ∈ l1, (lookupId st1 p.1).isSome = true := by
      intro p hp
      rw [lookupId_congr st st1 hmap1]
      exact hall p (by simp [hp])
    have hmiss1 : lookupId st1 d = none := by
      rw [lookupId_congr st st1 hmap1]
      exact hmiss
    have ih := acsAddNodeLinksGo_err D W src snd d wq l2 l1 st1 hsh1 hall1 hmiss1
    rw [List.cons_append]
    unfold acsAddNodeLinksGo
    simp only [hdst, h1]
    exact ih

/-- Claim C6.  `acsAddNodeLinks` (the worker behind `AddNodeLinks`) fails
with UNKNOWN_NODE naming `src` when `src` is not mapped; it fails with
UNKNOWN_NODE naming the first unmapped destination id (when that id is not
the reserved `ID_NONE`); and it completes when `src` and every destination
are mapped.  Stated for the deterministic `shuffle = false` path — with
shuffling on, inserting a first link runs into the undefined `rand() % 0`
(see claim C10). -/
theorem hirecs_claim_C6 (D W : Bool) (st : GraphSt) (src : Nat)
    (links : List (Nat × ℚ)) (hsh : st.shuffle = false) :
    (lookupId st src = none →
      acsAddNodeLinksM D W st src links = .error (.unknownNode src))
    ∧ ((lookupId st src).isSome = true →
        (∀ p ∈ links, (lookupId st p.1).isSome = true) →
        ∃ st', acsAddNodeLinksM D W st src links = .ok st')
    ∧ (∀ l1 d wq l2, links = l1 ++ (d, wq) :: l2 →
        (lookupId st src).isSome = true →
        (∀ p ∈ l1, (lookupId st p.1).isSome = true) →
        lookupId st d = none → d ≠ ID_NONE →
        acsAddNodeLinksM D W st src links = .error (.unknownNode d)) := by
  refine ⟨?_, ?_, ?_⟩
  · intro hmiss
    unfold acsAddNodeLinksM
    rw [hmiss]
  · intro hsrc hall
    obtain ⟨snd, hsnd⟩ := Option.isSome_iff_exists.mp hsrc
    obtain ⟨st', hst'⟩ := acsAddNodeLinksGo_ok D W src snd links st hsh hall
    refine ⟨st', ?_⟩
    unfold acsAddNodeLinksM
    simp only [hsnd]
    exact hst'
  · intro l1 d wq l2 hlinks hsrc hall hmiss hdn
    obtain ⟨snd, hsnd⟩ := Option.isSome_iff_exists.mp hsrc
    unfold acsAddNodeLinksM
    rw [hsnd, hlinks]
    simp only []
    rw [acsAddNodeLinksGo_err D W src snd d wq l2 l1 st hsh hall hmiss]
    rw [if_pos hdn]

/-- Witness for C6 on the concrete state `stC1` (ids 10 and 20): an unknown
source id 99 is reported; a fully mapped call succeeds; the first unknown
destination id 5 is reported. -/
theorem hirecs_claim_C6_witness :
    acsAddNodeLinksM false true stC1 99 [] = .error (.unknownNode 99)
    ∧ (∃ st', acsAddNodeLinksM false true stC1 10 [(20, 4)] = .ok st')
    ∧ acsAddNodeLinksM false true stC1 10 [(20, 4), (5, 1)] =
        .error (.unknownNode 5) := by
  refine ⟨?_, ?_, ?_⟩
  · exact (hirecs_claim_C6 false true stC1 99 [] rfl).1 rfl
  · refine (hirecs_claim_C6 false true stC1 10 [(20, 4)] rfl).2.1 rfl ?_
    intro p hp
    simp only [List.mem_singleton] at hp
    subst hp
    rfl
  · refine (hirecs_claim_C6 false true stC1 10 [(20, 4), (5, 1)] rfl).2.2
      [(20, 4)] 5 1 [] rfl rfl ?_ rfl (by decide)
    intro p hp
    simp only [List.mem_singleton] at hp
    subst hp
    rfl

/-! ## Lemmas about node insertion (claims C5 and C8) -/

/-- A `find?` hit is preserved by appending. -/
theorem find?_append_some {α : Type} (p : α → Bool) (x : α) :
    ∀ (l1 l2 : List α), l1.find? p = some x → (l1 ++ l2).find? p = some x
  | [], _, h => by simp [List.find?] at h
  | a :: l1, l2, h => by
    rw [List.cons_append]
    rw [List.find?] at h
    rw [List.find?]
    cases hp : p a
    · rw [hp] at h
      simp only [Bool.false_eq_true, if_false] at h ⊢
      exact find?_append_some p x l1 l2 h
    · rw [hp] at h
      simpa using h

/-- One `acsAddNodes` step: the collection grows by one node, an existing
id→node mapping survives (the C++ `emplace` keeps the old entry), the new id
becomes mapped, and a duplicate turns `assertsOK` off for good. -/
theorem acsAddNode_nodesLen (st : GraphSt) (i : Nat) :
    (acsAddNode st i).nodes.length = st.nodes.length + 1 := by
  unfold acsAddNode takeR
  by_cases hs : st.shuffle = true
  · simp only [hs, if_true]
    split <;> simp
  · simp only [hs, if_false]
    split <;> simp

/-- The rand stream and flags after one `acsAddNodes` step. -/
theorem acsAddNode_flags (st : GraphSt) (i : Nat) :
    (acsAddNode st i).shuffle = st.shuffle
    ∧ (acsAddNode st i).finalized = st.finalized := by
  unfold acsAddNode takeR
  by_cases hs : st.shuffle = true
  · simp [hs]
  · simp [hs]

/-- A `find?` miss on the first part of an appended list defers to the
second part. -/
theorem find?_append_none {α : Type} (p : α → Bool) :
    ∀ (l1 l2 : List α), l1.find? p = none → (l1 ++ l2).find? p = l2.find? p
  | [], _, _ => rfl
  | a :: l1, l2, h => by
    rw [List.find?] at h
    rw [List.cons_append, List.find?]
    cases hp : p a
    · rw [hp] at h
      simp only [Bool.false_eq_true, if_false] at h ⊢
      exact find?_append_none p l1 l2 h
    · rw [hp] at h
      simp at h

/-- The intermediate state drawn inside `acsAddNode` differs from `st` at
most in the rand stream. -/
theorem acsAddNode_pre (st : GraphSt) :
    (if st.shuffle = true then takeR st else (1, st)).2.idmap = st.idmap
    ∧ (if st.shuffle = true then takeR st else (1, st)).2.nextSerial = st.nextSerial
    ∧ (if st.shuffle = true then takeR st else (1, st)).2.assertsOK = st.assertsOK := by
  by_cases hs : st.shuffle = true <;> simp [hs, takeR]

/-- A mapped id stays mapped with the same serial after `acsAddNode`. -/
theorem acsAddNode_lookup_keep (st : GraphSt) (i k v : Nat)
    (h : lookupId st k = some v) : lookupId (acsAddNode st i) k = some v := by
  unfold lookupId at h ⊢
  obtain ⟨q, hq, hqv⟩ := Option.map_eq_some'.mp h
  unfold acsAddNode
  simp only [(acsAddNode_pre st).1, (acsAddNode_pre st).2.1]
  by_cases hf : (st.idmap.find? (fun p => p.1 == i)).isNone = true
  · simp only [hf, if_true]
    rw [find?_append_some _ q _ _ hq]
    simp [hqv]
  · simp only [hf]
    rw [if_neg (by simp)]
    rw [hq]
    simp [hqv]

/-- After `acsAddNode st i`, the id `i` is mapped. -/
theorem acsAddNode_lookup_new (st : GraphSt) (i : Nat) :
    (lookupId (acsAddNode st i) i).isSome = true := by
  unfold lookupId acsAddNode
  simp only [(acsAddNode_pre st).1, (acsAddNode_pre st).2.1]
  cases hf : st.idmap.find? (fun p => p.1 == i) with
  | none =>
    simp only [hf, Option.isNone_none, if_true]
    rw [find?_append_none _ _ _ hf]
    simp [List.find?]
  | some q =>
    simp only [hf, Option.isNone_some]
    rw [if_neg (by simp)]
    rw [hf]
    rfl

/-- Once an assertion has been violated, later `acsAddNodes` steps keep
`assertsOK` off. -/
theorem acsAddNodesM_asserts_mono :
    ∀ (ids : List Nat) (st : GraphSt), st.assertsOK = false →
      (acsAddNodesM st ids).assertsOK = false
  | [], _, h => h
  | i :: ids, st, h => by
    have h1 : (acsAddNode st i).assertsOK = false := by
      unfold acsAddNode
      by_cases hs : st.shuffle <;> simp [hs, takeR, h]
    exact acsAddNodesM_asserts_mono ids (acsAddNode st i) h1

/-- Adding a node whose id is already mapped violates the debug assertion
`ridn.second` ("input node is duplicated"): `assertsOK` turns off. -/
theorem acsAddNode_assert_dup (st : GraphSt) (i : Nat)
    (h : (lookupId st i).isSome = true) : (acsAddNode st i).assertsOK = false := by
  have hf : ∃ q, st.idmap.find? (fun p => p.1 == i) = some q := by
    unfold lookupId at h
    cases hx : st.idmap.find? (fun p => p.1 == i)
    · rw [hx] at h
      simp at h
    · exact ⟨_, rfl⟩
  obtain ⟨q, hq⟩ := hf
  unfold acsAddNode
  simp only [(acsAddNode_pre st).1, (acsAddNode_pre st).2.2, hq, Option.isNone_some,
    Bool.and_false]

/-- A duplicated input id — within the batch or against the existing map —
drives `assertsOK` to false by the end of `acsAddNodes`. -/
theorem acsAddNodesM_dup :
    ∀ (ids : List Nat) (st : GraphSt),
      ((∃ i ∈ ids, (lookupId st i).isSome = true) ∨ ¬ids.Nodup) →
      (acsAddNodesM st ids).assertsOK = false
  | [], st, h => by
    rcases h with ⟨i, hi, _⟩ | h
    · exact absurd hi (List.not_mem_nil i)
    · exact absurd List.nodup_nil h
  | i :: ids, st, h => by
    have hstep : acsAddNodesM st (i :: ids) = acsAddNodesM (acsAddNode st i) ids := rfl
    rw [hstep]
    rcases h with ⟨j, hj, hjs⟩ | h
    · rcases List.mem_cons.mp hj with hji | hjm
      · subst hji
        exact acsAddNodesM_asserts_mono ids _ (acsAddNode_assert_dup st j hjs)
      · obtain ⟨v, hv⟩ := Option.isSome_iff_exists.mp hjs
        have := acsAddNode_lookup_keep st i j v hv
        exact acsAddNodesM_dup ids (acsAddNode st i)
          (Or.inl ⟨j, hjm, by rw [this]; rfl⟩)
    · by_cases hmem : i ∈ ids
      · exact acsAddNodesM_dup ids (acsAddNode st i)
          (Or.inl ⟨i, hmem, acsAddNode_lookup_new st i⟩)
      · refine acsAddNodesM_dup ids (acsAddNode st i) (Or.inr ?_)
        intro hnd
        exact h (List.nodup_cons.mpr ⟨hmem, hnd⟩)

/-- The node collection grows by exactly one node per input id. -/
theorem acsAddNodesM_len :
    ∀ (ids : List Nat) (st : GraphSt),
      (acsAddNodesM st ids).nodes.length = st.nodes.length + ids.length
  | [], _ => rfl
  | i :: ids, st => by
    have hstep : acsAddNodesM st (i :: ids) = acsAddNodesM (acsAddNode st i) ids := rfl
    rw [hstep, acsAddNodesM_len ids (acsAddNode st i), acsAddNode_nodesLen]
    simp only [List.length_cons]
    omega

/-- The id map never loses or rebinds an existing mapping: on a duplicate,
the C++ `emplace` keeps the first node. -/
theorem acsAddNodesM_keep :
    ∀ (ids : List Nat) (st : GraphSt) (k v : Nat),
      lookupId st k = some v → lookupId (acsAddNodesM st ids) k = some v
  | [], _, _, _, h => h
  | i :: ids, st, k, v, h =>
    acsAddNodesM_keep ids (acsAddNode st i) k v (acsAddNode_lookup_keep st i k v h)

/-- Amended claim C5.  `addNodes` with a duplicated id does not fail with
INVALID_INPUT (or at all): it returns normally, the collection still grows by
one node per input id — the duplicate included — the id map keeps the first
node bound to each id, and the duplication is recorded only by the violated
debug assertion (`assertsOK = false`), which release builds compile out. -/
theorem hirecs_claim_C5_amended (st : GraphSt) (ids : List Nat)
    (hfin : st.finalized = false)
    (hdup : (∃ i ∈ ids, (lookupId st i).isSome = true) ∨ ¬ids.Nodup) :
    ∃ st', addNodesM st ids = .ok st'
      ∧ st'.nodes.length = st.nodes.length + ids.length
      ∧ (∀ k v, lookupId st k = some v → lookupId st' k = some v)
      ∧ st'.assertsOK = false := by
  refine ⟨acsAddNodesM st ids, ?_, acsAddNodesM_len ids st,
    fun k v h => acsAddNodesM_keep ids st k v h, acsAddNodesM_dup ids st hdup⟩
  unfold addNodesM
  rw [hfin]
  rw [if_neg (by simp)]

/-- The state after the C5 counterexample run: `addNodes({7, 7})` on a fresh
builder. -/
def stC5 : GraphSt :=
  (addNodesM (GraphMk 0 false []) [7, 7]).toOption.getD (GraphMk 0 false [])

/-- Counterexample to claim C5 as stated: adding the duplicated ids `{7, 7}`
does not fail with INVALID_INPUT — it succeeds, and the collection holds two
nodes with id 7 (only the debug assertion flag records the duplicate). -/
theorem hirecs_claim_C5_cex :
    addNodesM (GraphMk 0 false []) [7, 7] = .ok stC5
    ∧ stC5.nodes.map Prod.snd = [7, 7]
    ∧ stC5.assertsOK = false
    ∧ ∀ e : BErr, addNodesM (GraphMk 0 false []) [7, 7] ≠ .error e := by
  refine ⟨rfl, rfl, rfl, ?_⟩
  intro e he
  have h0 : addNodesM (GraphMk 0 false []) [7, 7] = .ok stC5 := rfl
  rw [h0] at he
  exact Except.noConfusion he

/-- Witness for the amended claim C5, at the concrete duplicated batch
`{7, 7}` on a fresh builder. -/
theorem hirecs_claim_C5_witness :
    ∃ st', addNodesM (GraphMk 3 false []) [7, 7] = .ok st'
      ∧ st'.nodes.length = (GraphMk 3 false []).nodes.length + ([7, 7] : List Nat).length
      ∧ (∀ k v, lookupId (GraphMk 3 false []) k = some v → lookupId st' k = some v)
      ∧ st'.assertsOK = false :=
  hirecs_claim_C5_amended (GraphMk 3 false []) [7, 7] rfl (Or.inr (by decide))

/-- With `m_shuffle` off, one `acsAddNodes` step appends at the back and
draws no random value. -/
theorem acsAddNode_noshuffle (st : GraphSt) (i : Nat) (hsh : st.shuffle = false) :
    (acsAddNode st i).nodes = st.nodes ++ [(st.nextSerial, i)]
    ∧ (acsAddNode st i).rnd = st.rnd
    ∧ (acsAddNode st i).shuffle = false := by
  unfold acsAddNode takeR
  simp [hsh]

/-- With `m_shuffle` off, `acsAddNodes` appends every id at the back, in
order, and never consults `rand()`. -/
theorem acsAddNodesM_noshuffle_spec :
    ∀ (ids : List Nat) (st : GraphSt), st.shuffle = false →
      (acsAddNodesM st ids).nodes.map Prod.snd = st.nodes.map Prod.snd ++ ids
      ∧ (acsAddNodesM st ids).rnd = st.rnd
      ∧ (acsAddNodesM st ids).shuffle = false
  | [], st, hsh => ⟨by simp [acsAddNodesM], rfl, hsh⟩
  | i :: ids, st, hsh => by
    have hstep : acsAddNodesM st (i :: ids) = acsAddNodesM (acsAddNode st i) ids := rfl
    obtain ⟨hn, hr, hs⟩ := acsAddNode_noshuffle st i hsh
    obtain ⟨ihn, ihr, ihs⟩ := acsAddNodesM_noshuffle_spec ids (acsAddNode st i) hs
    refine ⟨?_, ?_, ?_⟩
    · rw [hstep, ihn, hn]
      simp
    · rw [hstep, ihr, hr]
    · rw [hstep]
      exact ihs

/-- Claim C8 (the code as it is).  A builder made by the `Graph` constructor
ignores the `shuffle` argument: `m_shuffle` is initialized to `false`, so
every subsequently added node is appended at the back — in input order — and
the random stream is never consulted, whatever `shuffle` was passed.  (Only
`reinit` honours the flag.)  This exhibits the constructor bug behind the
claim's correction; the claimed random front/back choice never happens. -/
theorem hirecs_claim_C8 (n : Nat) (sh : Bool) (rnd : List Nat) (ids : List Nat) :
    ∃ st', addNodesM (GraphMk n sh rnd) ids = .ok st'
      ∧ st'.nodes.map Prod.snd = ids
      ∧ st'.rnd = rnd
      ∧ st'.shuffle = false := by
  obtain ⟨hn, hr, hs⟩ := acsAddNodesM_noshuffle_spec ids (GraphMk n sh rnd) rfl
  refine ⟨acsAddNodesM (GraphMk n sh rnd) ids, rfl, ?_, ?_, hs⟩
  · rw [hn]
    simp [GraphMk]
  · exact hr

/-! ## The shared cluster id counter (claim C9) -/

/-- Model of the process-wide cluster id counter `Cluster::m_uid`
(`src/export/types.h:261`, initialized to 0 in `types.hpp`): a
`static atomic<Id>` with `Id = uint32_t`, so the post-increment
`ClusterI<LinksT>(m_uid++)` wraps around at `2^32`.  `uidCounter k` is the
stored value after `k` cluster creations. -/
def uidCounter : Nat → Nat
  | 0 => 0
  | k + 1 => (uidCounter k + 1) % 2 ^ 32

/-- The id the `k`-th cluster creation receives (0-based): the counter value
before its post-increment. -/
def uidAt (k : Nat) : Nat := uidCounter k

/-- Closed form of the wrapped counter. -/
theorem uidCounter_eq (k : Nat) : uidCounter k = k % 2 ^ 32 := by
  induction k with
  | zero => rfl
  | succ k ih => rw [uidCounter, ih, Nat.mod_add_mod]

/-- Counterexample to claim C9 as stated: the `uint32_t` counter wraps, so
the cluster created at position `2^32` receives id 0 — strictly smaller
than, not greater than, the id 1 of the cluster created at position 1. -/
theorem hirecs_claim_C9_cex :
    uidAt 1 = 1 ∧ uidAt (2 ^ 32) = 0 ∧ uidAt (2 ^ 32) < uidAt 1 := by
  have h1 : uidAt 1 = 1 := by
    rw [uidAt, uidCounter_eq]
    exact Nat.mod_eq_of_lt (by norm_num)
  have h2 : uidAt (2 ^ 32) = 0 := by
    rw [uidAt, uidCounter_eq, Nat.mod_self]
  refine ⟨h1, h2, ?_⟩
  rw [h1, h2]
  omega

/-- Amended claim C9: cluster ids come from the single shared counter and
are strictly increasing across the creations of one process as long as
fewer than `2^32` clusters have been created (the ids are the counter values
modulo `2^32`). -/
theorem hirecs_claim_C9 (i j : Nat) (hij : i < j) (hj : j < 2 ^ 32) :
    uidAt i < uidAt j := by
  rw [uidAt, uidAt, uidCounter_eq, uidCounter_eq,
    Nat.mod_eq_of_lt (lt_trans hij hj), Nat.mod_eq_of_lt hj]
  exact hij

/-- Witness for the amended claim C9 at the first two creations. -/
theorem hirecs_claim_C9_witness : uidAt 0 < uidAt 1 :=
  hirecs_claim_C9 0 1 (by norm_num) (by norm_num)

/-! ## The client `.hig` link parser (claim C7)

Model of `Client::parseLinks<WEIGHTED>` (`src/unnamed/part_001:359-437`): the
scan of one `src > d1[:w1] d2[:w2] ...` line of an /Edges or /Arcs section.
Strings are `List Char`; the loop position `pos` is represented by the
suffix of the line starting at `pos`, which is what every operation of the
loop reads. -/

/-- The delimiters `spaces[] = " \t"` of `parseLinks`. -/
def isSpaceC (c : Char) : Bool := c == ' ' || c == '\t'

/-- Numeric value of a digit string (how `stoul` accumulates it). -/
def digitsVal (ds : List Char) (acc : Nat) : Nat :=
  ds.foldl (fun a c => a * 10 + (c.toNat - 48)) acc

/-- Model of `std::stoul` on a prefix: skip spaces, then read a maximal
nonempty digit run; `none` models the `std::invalid_argument` it throws when
no digits follow (signs and non-decimal forms do not occur in `.hig` ids).
Returns the value and the number of characters consumed. -/
def stoulM (l : List Char) : Option (Nat × Nat) :=
  let rest := l.dropWhile isSpaceC
  let sk := l.length - rest.length
  let ds := rest.takeWhile Char.isDigit
  if ds = [] then none
  else some (digitsVal ds 0, sk + ds.length)

/-- Numeric value of `ds.fs` as a rational. -/
def fracVal (ds fs : List Char) : ℚ :=
  (digitsVal ds 0 : ℚ) + (digitsVal fs 0 : ℚ) / (10 : ℚ) ^ fs.length

/-- Model of `std::stof` on a prefix: digits with an optional fraction (the
forms the `.hig` weights use); `none` models its `std::invalid_argument`.
Returns the value and the number of characters consumed. -/
def stofM (l : List Char) : Option (ℚ × Nat) :=
  let rest := l.dropWhile isSpaceC
  let sk := l.length - rest.length
  let ds := rest.takeWhile Char.isDigit
  let rest2 := rest.drop ds.length
  if ds = [] then none
  else
    match rest2 with
    | '.' :: t =>
      let fs := t.takeWhile Char.isDigit
      some (fracVal ds fs, sk + ds.length + 1 + fs.length)
    | _ => some ((digitsVal ds 0 : ℚ), sk + ds.length)

/-- Failures of the link-line parse.  `badNumber` is the
`std::invalid_argument` of `stoul`/`stof`; `invalidFormat` the
`domain_error` "Invalid value format in pos ..." — both INVALID_INPUT kinds.
`substrOutOfRange` is the `std::out_of_range` that `line.substr(npos, ...)`
throws when a line ends in trailing spaces; `fuelOut` is an artifact of the
bounded recursion and is never returned when the fuel exceeds the suffix
length. -/
inductive PErr where
  | badNumber
  | invalidFormat
  | substrOutOfRange
  | fuelOut
deriving Repr, DecidableEq

/-- One-token-at-a-time model of the `while(pos < lineLen)` loop of
`parseLinks` (`src/unnamed/part_001:389-424`).  Each parsed link is
`(dst id, some w)` when `WEIGHTED` and an explicit `:w` was consumed, else
`(dst id, none)` (the C++ then adds the link with the default weight 1).
The `offs` of the source corresponds to splitting the suffix after the
number at the first space: `pre`/`post` are the parts before/from that
space; `offs != pos` is `pre ≠ []`, `offs == npos` is `post = []`, and the
continuation at `pos = offs` is `post`. -/
def parseTokens (W : Bool) : Nat → List Char → Except PErr (List (Nat × Option ℚ))
  | 0, _ => .error .fuelOut
  | _ + 1, [] => .ok []
  | fuel + 1, c0 :: cs =>
    let rest1 := (c0 :: cs).dropWhile isSpaceC
    if rest1 = [] then .error .substrOutOfRange
    else
      match stoulM (rest1.take 8) with
      | none => .error .badNumber
      | some (did, k) =>
        let rest2 := rest1.drop k
        let wres : Except PErr ((Option ℚ) × List Char) :=
          if W ∧ rest2.head? = some ':' then
            match stofM (rest2.tail.take 8) with
            | none => .error .badNumber
            | some (wv, k2) => .ok (some wv, rest2.drop (1 + k2))
          else .ok (none, rest2)
        match wres with
        | .error e => .error e
        | .ok (wopt, rest3) =>
          let pre := rest3.takeWhile (fun c => !isSpaceC c)
          let post := rest3.dropWhile (fun c => !isSpaceC c)
          if pre ≠ [] ∧ post ≠ [] ∧ (W = true ∨ rest3.head? ≠ some ':') then
            .error .invalidFormat
          else
            (parseTokens W fuel post).map (fun ls => (did, wopt) :: ls)

/-- Model of `Client::parseLinks<WEIGHTED>` on one line: read the source
node id, find `>`, and scan the link tokens after it; without a `>` the
line contributes no links and is accepted. -/
def parseLinksM (W : Bool) (line : List Char) :
    Except PErr (Nat × List (Nat × Option ℚ)) :=
  match stoulM line with
  | none => .error .badNumber
  | some (nid, pos) =>
    match (line.drop pos).dropWhile (fun c => !(c == '>')) with
    | [] => .ok (nid, [])
    | _ :: cur => (parseTokens W (cur.length + 1) cur).map (fun ls => (nid, ls))

/-- A decimal digit is not one of the delimiters. -/
theorem digit_not_space (c : Char) (h : c.isDigit = true) : isSpaceC c = false := by
  by_cases h1 : c = ' '
  · subst h1
    exact absurd h (by decide)
  · by_cases h2 : c = '\t'
    · subst h2
      exact absurd h (by decide)
    · simp only [isSpaceC, Bool.or_eq_false_iff]
      exact ⟨beq_eq_false_iff_ne.mpr h1, beq_eq_false_iff_ne.mpr h2⟩

/-- `takeWhile` passes over a prefix it accepts entirely. -/
theorem takeWhile_append_all {α : Type} (p : α → Bool) :
    ∀ (l t : List α), (∀ c ∈ l, p c = true) →
      (l ++ t).takeWhile p = l ++ t.takeWhile p
  | [], _, _ => rfl
  | a :: l, t, h => by
    rw [List.cons_append, List.takeWhile_cons, if_pos (h a (by simp)),
      takeWhile_append_all p l t (fun c hc => h c (by simp [hc])), List.cons_append]

/-- `dropWhile` drops a prefix it accepts entirely. -/
theorem dropWhile_append_all {α : Type} (p : α → Bool) :
    ∀ (l t : List α), (∀ c ∈ l, p c = true) →
      (l ++ t).dropWhile p = t.dropWhile p
  | [], _, _ => rfl
  | a :: l, t, h => by
    rw [List.cons_append, List.dropWhile_cons, if_pos (h a (by simp))]
    exact dropWhile_append_all p l t (fun c hc => h c (by simp [hc]))

/-- `dropWhile` keeps a list whose head it rejects. -/
theorem dropWhile_cons_keep {α : Type} (p : α → Bool) (a : α) (l : List α)
    (h : p a = false) : (a :: l).dropWhile p = a :: l := by
  rw [List.dropWhile_cons, if_neg (by simp [h])]

/-- `stoul` on a digit run followed by a non-digit reads exactly the run. -/
theorem stoulM_digits (ds t : List Char) (h1 : ds ≠ [])
    (h3 : ∀ c ∈ ds, c.isDigit = true)
    (ht : ∀ x, t.head? = some x → x.isDigit = false) :
    stoulM (ds ++ t) = some (digitsVal ds 0, ds.length) := by
  unfold stoulM
  have hdrop : (ds ++ t).dropWhile isSpaceC = ds ++ t := by
    cases ds with
    | nil => exact absurd rfl h1
    | cons d ds' =>
      rw [List.cons_append]
      exact dropWhile_cons_keep _ _ _ (digit_not_space d (h3 d (by simp)))
  have htake : (ds ++ t).takeWhile Char.isDigit = ds := by
    rw [takeWhile_append_all _ ds t h3]
    cases t with
    | nil => simp
    | cons x xs =>
      rw [List.takeWhile_cons, if_neg (by simp [ht x rfl])]
      simp
  simp only [hdrop, htake]
  rw [if_neg h1]
  simp

/-- Amended claim C7.  In an unweighted graph, a link token `d:...` whose
`:`-suffix holds no delimiter and is followed by a space is not rejected:
the `(WEIGHTED || line[pos] != ':')` guard exempts `:` in the unweighted
case, the suffix is skipped to the next space, and the link is recorded with
no explicit weight (the C++ then adds it with the default weight 1). -/
theorem hirecs_claim_C7_amended (fuel : Nat) (ds junk rest : List Char)
    (h1 : ds ≠ []) (h2 : ds.length ≤ 8)
    (h3 : ∀ c ∈ ds, c.isDigit = true)
    (h4 : ∀ c ∈ junk, isSpaceC c = false) :
    parseTokens false (fuel + 1) (ds ++ ':' :: (junk ++ ' ' :: rest)) =
      (parseTokens false fuel (' ' :: rest)).map
        (fun ls => (digitsVal ds 0, none) :: ls) := by
  obtain ⟨d, ds', rfl⟩ : ∃ d ds', ds = d :: ds' := by
    cases ds with
    | nil => exact absurd rfl h1
    | cons d ds' => exact ⟨d, ds', rfl⟩
  have hdrop : (d :: (ds' ++ ':' :: (junk ++ ' ' :: rest))).dropWhile isSpaceC =
      d :: (ds' ++ ':' :: (junk ++ ' ' :: rest)) :=
    dropWhile_cons_keep _ _ _ (digit_not_space d (h3 d (by simp)))
  have hne : ¬(d :: (ds' ++ ':' :: (junk ++ ' ' :: rest)) = []) := by simp
  have hstoul : stoulM ((d :: (ds' ++ ':' :: (junk ++ ' ' :: rest))).take 8) =
      some (digitsVal (d :: ds') 0, (d :: ds').length) := by
    rw [← List.cons_append, List.take_append_eq_append_take, List.take_of_length_le h2]
    refine stoulM_digits _ _ (by simp) h3 ?_
    intro x hx
    cases h8 : 8 - (d :: ds').length with
    | zero =>
      rw [h8] at hx
      simp at hx
    | succ m =>
      rw [h8] at hx
      rw [List.take_succ_cons] at hx
      simp only [List.head?_cons, Option.some.injEq] at hx
      subst hx
      decide
  have hdropk : (d :: (ds' ++ ':' :: (junk ++ ' ' :: rest))).drop (d :: ds').length =
      ':' :: (junk ++ ' ' :: rest) := by
    rw [← List.cons_append]
    exact List.drop_left (d :: ds') _
  have hpre : (':' :: (junk ++ ' ' :: rest)).takeWhile (fun c => !isSpaceC c) =
      ':' :: junk := by
    have hsplit : (':' :: (junk ++ ' ' :: rest)) = (':' :: junk) ++ (' ' :: rest) := by
      simp
    rw [hsplit, takeWhile_append_all _ (':' :: junk) (' ' :: rest) ?hall]
    · rw [List.takeWhile_cons, if_neg (by decide)]
      simp
    case hall =>
      intro c hc
      rcases List.mem_cons.mp hc with hc | hc
      · subst hc
        decide
      · simp [h4 c hc]
  have hpost : (':' :: (junk ++ ' ' :: rest)).dropWhile (fun c => !isSpaceC c) =
      ' ' :: rest := by
    have hsplit : (':' :: (junk ++ ' ' :: rest)) = (':' :: junk) ++ (' ' :: rest) := by
      simp
    rw [hsplit, dropWhile_append_all _ (':' :: junk) (' ' :: rest) ?hall2]
    · rw [List.dropWhile_cons, if_neg (by decide)]
    case hall2 =>
      intro c hc
      rcases List.mem_cons.mp hc with hc | hc
      · subst hc
        decide
      · simp [h4 c hc]
  rw [List.cons_append]
  conv_lhs =>
    unfold parseTokens
    simp only [hdrop, if_neg hne, hstoul, hdropk]
    simp only [Bool.false_eq_true, false_and, if_false]
    simp only [hpre, hpost]
    rw [if_neg (by simp)]

/-- The concrete line of the C7 counterexample: `0 > 1:5 2`. -/
def lineC7 : List Char := ['0', ' ', '>', ' ', '1', ':', '5', ' ', '2']

/-- Counterexample to claim C7 as stated: on an unweighted graph
(`weighted:0`), the line `0 > 1:5 2` — whose first link token carries the
explicit weight suffix `:5` — parses without any error: the suffix is
silently skipped and both links are taken with the default weight. -/
theorem hirecs_claim_C7_cex :
    parseLinksM false lineC7 = .ok (0, [(1, none), (2, none)])
    ∧ ∀ e : PErr, parseLinksM false lineC7 ≠ .error e := by
  refine ⟨rfl, ?_⟩
  intro e he
  have h0 : parseLinksM false lineC7 = .ok (0, [(1, none), (2, none)]) := rfl
  rw [h0] at he
  exact Except.noConfusion he

/-- Witness for the amended claim C7, on the concrete token `1:7` followed
by the token `2`. -/
theorem hirecs_claim_C7_witness :
    parseTokens false (1 + 1) (['1'] ++ ':' :: (['7'] ++ ' ' :: ['2'])) =
      (parseTokens false 1 (' ' :: ['2'])).map
        (fun ls => (digitsVal ['1'] 0, none) :: ls) :=
  hirecs_claim_C7_amended 1 ['1'] ['7'] ['2'] (by decide) (by decide)
    (by decide) (by decide)

/-! ## The hierarchy and `Hierarchy::unwrap` (claims C2 and C3)

Model of `Hierarchy<LinksT>::unwrap(cl, clNodes)` (`src/export/types.h`,
inlined `types.hpp` part, lines 506-541).  An item (a `ClusterI*`: a Node or
a Cluster) is identified by its index in a list `H`; `owners` keeps only the
owner count, which is all `unwrap` reads (`cl->owners.size()`), and `des` is
`some` of the descendant indices for a cluster (`descs()` non-null) and
`none` for a leaf node.  The level maps (`unordered_map` keyed by item with
`Share` values, accumulated with `operator[] +=`) are modelled by their
value functions `Nat → ℚ`; a key is present exactly when its share is
nonzero, since only positive shares are ever inserted.  The C++ iterates
each level's map in unspecified `unordered_map` order; the model iterates
the indices in order — the resulting maps agree because the accumulated
sums are order-independent.  The `while(!lev.empty())` loop is run as a
bounded iteration: once the level map is empty (identically zero) every
further step is the identity, so any sufficiently large fuel — e.g. any
bound on the hierarchy's depth — yields the loop's final result. -/

/-- One hierarchy item: its owner count (`owners.size()`) and its
descendants (`des`), `none` for a leaf `Node`.  A `Cluster` with
`descs()->empty()` is `some []` (the loop skips it via `continue`). -/
structure HItem where
  owners : Nat
  des : Option (List Nat)
deriving Repr, DecidableEq

instance : Inhabited HItem := ⟨⟨0, none⟩⟩

/-- The item at index `i` (out-of-range indices never carry shares; the
default is an unowned leaf). -/
def itemAt (H : List HItem) (i : Nat) : HItem := H.getD i default

/-- Descendant list of item `i` (empty for a leaf). -/
def desL (H : List HItem) (i : Nat) : List Nat := ((itemAt H i).des).getD []

/-- Whether item `i` is a leaf node (`descs()` returns null). -/
def isLeafI (H : List HItem) (i : Nat) : Bool := ((itemAt H i).des).isNone

/-- The divisor of the share propagation:
`!cl->owners.empty() ? cl->owners.size() : 1`. -/
def odiv (H : List HItem) (i : Nat) : ℚ :=
  if (itemAt H i).owners = 0 then 1 else ((itemAt H i).owners : ℚ)

/-- A level map (or result map): the share of every item. -/
abbrev Lev := Nat → ℚ

/-- The inner loop `for(const auto cl: *des) levn[cl] += il.second / ...` of
`unwrap`, accumulating the share `s` of one item into the next level's map. -/
def addDes (H : List HItem) (s : ℚ) : List Nat → Lev → Lev
  | [], acc => acc
  | d :: D, acc =>
    addDes H s D (fun x => if x = d then acc x + s / odiv H d else acc x)

/-- The cluster half of one `while` iteration of `unwrap`: every item of the
current level with descendants spreads its share into the fresh map `levn`. -/
def spread (H : List HItem) (lev : Lev) : Lev :=
  (List.range H.length).foldl
    (fun acc j =>
      match (itemAt H j).des with
      | some D => addDes H (lev j) D acc
      | none => acc)
    (fun _ => 0)

/-- The leaf half of the same iteration:
`clNodes[(Node*)il.first] += il.second`. -/
def stepRes (H : List HItem) (lev res : Lev) : Lev :=
  fun x => res x + (if isLeafI H x then lev x else 0)

/-- The `while(!lev.empty())` loop of `unwrap`, run `fuel` times (a no-op
once the level is empty). -/
def unwrapSteps (H : List HItem) : Nat → Lev → Lev → Lev
  | 0, _, res => res
  | fuel + 1, lev, res => unwrapSteps H fuel (spread H lev) (stepRes H lev res)

/-- The initial level `lev({{&cl, 1}})`. -/
def delta (c : Nat) : Lev := fun x => if x = c then 1 else 0

/-- `Hierarchy::unwrap(cl, clNodes)`: starting from `{cl ↦ 1}` and the
caller's result map `res0`, descend level by level, spreading shares and
accumulating leaf shares. -/
def unwrapF (H : List HItem) (c fuel : Nat) (res0 : Lev) : Lev :=
  unwrapSteps H fuel (delta c) res0

/-- Spec-side description of one spreading step (the claim's words): each
descendant receives, from every item of the level, that item's share divided
by the descendant's owner count (1 when its owners list is empty), once per
occurrence among the item's descendants. -/
def spreadSpec (H : List HItem) (lev : Lev) : Lev := fun d =>
  ∑ j ∈ Finset.range H.length, lev j * ((desL H j).count d : ℚ) / odiv H d

/-- Spec-side descent: same level-by-level recursion with the described
spreading step. -/
def unwrapSpecSteps (H : List HItem) : Nat → Lev → Lev → Lev
  | 0, _, res => res
  | fuel + 1, lev, res =>
    unwrapSpecSteps H fuel (spreadSpec H lev) (stepRes H lev res)

/-- Spec-side `unwrap`. -/
def unwrapSpecF (H : List HItem) (c fuel : Nat) (res0 : Lev) : Lev :=
  unwrapSpecSteps H fuel (delta c) res0

/-- Closed form of the inner descendant loop. -/
theorem addDes_apply (H : List HItem) (s : ℚ) :
    ∀ (D : List Nat) (acc : Lev) (x : Nat),
      addDes H s D acc x = acc x + s * (D.count x : ℚ) / odiv H x
  | [], acc, x => by simp [addDes]
  | d :: D, acc, x => by
    rw [addDes, addDes_apply H s D]
    by_cases hx : x = d
    · subst hx
      rw [if_pos rfl, List.count_cons_self]
      push_cast
      rw [add_assoc, div_add_div_same]
      congr 1
      ring
    · rw [if_neg hx, List.count_cons_of_ne hx]

/-- Pointwise value of the fold over the level's items. -/
theorem spread_foldl_apply (H : List HItem) (lev : Lev) :
    ∀ (L : List Nat) (acc : Lev) (x : Nat),
      (L.foldl (fun acc j =>
        match (itemAt H j).des with
        | some D => addDes H (lev j) D acc
        | none => acc) acc) x
      = acc x + ((L.map (fun j => lev j * ((desL H j).count x : ℚ) / odiv H x)).sum)
  | [], acc, x => by simp
  | j :: L, acc, x => by
    rw [List.foldl_cons, spread_foldl_apply H lev L, List.map_cons, List.sum_cons]
    have hstep : (match (itemAt H j).des with
        | some D => addDes H (lev j) D acc
        | none => acc) x
        = acc x + lev j * ((desL H j).count x : ℚ) / odiv H x := by
      cases hdes : (itemAt H j).des with
      | none =>
        have : desL H j = [] := by
          unfold desL
          rw [hdes]
          rfl
        simp [this]
      | some D =>
        have hD : desL H j = D := by
          unfold desL
          rw [hdes]
          rfl
        simp only [addDes_apply, hD]
    rw [hstep]
    ring

/-- Claim C2, step level: the imperative accumulation over the level's map
realizes exactly the claim's per-descendant formula. -/
theorem spread_eq_spreadSpec (H : List HItem) (lev : Lev) :
    spread H lev = spreadSpec H lev := by
  funext x
  unfold spread spreadSpec
  rw [spread_foldl_apply H lev (List.range H.length) (fun _ => 0) x]
  simp only [zero_add]
  rfl

/-- The full descent agrees with the spec-side descent step by step. -/
theorem unwrapSteps_eq_spec (H : List HItem) :
    ∀ (fuel : Nat) (lev res : Lev),
      unwrapSteps H fuel lev res = unwrapSpecSteps H fuel lev res
  | 0, _, _ => rfl
  | fuel + 1, lev, res => by
    rw [unwrapSteps, unwrapSpecSteps, spread_eq_spreadSpec]
    exact unwrapSteps_eq_spec H fuel (spreadSpec H lev) (stepRes H lev res)

/-- Claim C2.  `unwrap` computes, for any starting cluster, fuel and caller
result map, exactly the map described by the spec: the level-by-level
descent from `{c ↦ 1}` in which an item's share is added to each descendant
divided by that descendant's owner count (or 1 when its owners list is
empty), leaf shares being accumulated into the caller's result map. -/
theorem hirecs_claim_C2 (H : List HItem) (c fuel : Nat) (res0 : Lev) :
    unwrapF H c fuel res0 = unwrapSpecF H c fuel res0 :=
  unwrapSteps_eq_spec H fuel (delta c) res0

/-! ## Quantitative properties of `unwrap` (claim C3) -/

/-- Iterating the spreading step. -/
def spreadIter (H : List HItem) : Nat → Lev → Lev
  | 0, lev => lev
  | k + 1, lev => spreadIter H k (spread H lev)

/-- Iteration from the right. -/
theorem spreadIter_succ_right (H : List HItem) :
    ∀ (k : Nat) (lev : Lev),
      spreadIter H (k + 1) lev = spread H (spreadIter H k lev)
  | 0, _ => rfl
  | k + 1, lev => by
    show spreadIter H (k + 1) (spread H lev) = spread H (spreadIter H (k + 1) lev)
    rw [spreadIter_succ_right H k (spread H lev)]
    rfl

/-- The level maps of the descent from cluster `c`: `levSeq H c k` is the
level after `k` iterations of the `while` loop. -/
def levSeq (H : List HItem) (c k : Nat) : Lev := spreadIter H k (delta c)

/-- Recurrence of the level maps. -/
theorem levSeq_succ (H : List HItem) (c k : Nat) :
    levSeq H c (k + 1) = spread H (levSeq H c k) :=
  spreadIter_succ_right H k (delta c)

/-- Master formula: after `fuel` iterations, an item holds the caller's
entry plus — iff it is a leaf — the sum of the shares it carried at every
level. -/
theorem unwrapSteps_apply (H : List HItem) :
    ∀ (fuel : Nat) (lev res : Lev) (x : Nat),
      unwrapSteps H fuel lev res x =
        res x + (if isLeafI H x then
          ∑ k ∈ Finset.range fuel, spreadIter H k lev x else 0)
  | 0, lev, res, x => by simp [unwrapSteps]
  | fuel + 1, lev, res, x => by
    rw [unwrapSteps, unwrapSteps_apply H fuel (spread H lev) (stepRes H lev res) x]
    unfold stepRes
    by_cases hx : isLeafI H x = true
    · rw [if_pos hx, if_pos hx, if_pos hx, Finset.sum_range_succ']
      have hsh : ∀ k, spreadIter H k (spread H lev) x = spreadIter H (k + 1) lev x :=
        fun _ => rfl
      rw [Finset.sum_congr rfl (fun k _ => hsh k)]
      have h0 : spreadIter H 0 lev x = lev x := rfl
      rw [h0]
      ring
    · rw [if_neg hx, if_neg hx, if_neg hx]
      simp

/-- The owner divisor is positive. -/
theorem odiv_pos (H : List HItem) (i : Nat) : 0 < odiv H i := by
  unfold odiv
  split
  · norm_num
  · rename_i h
    exact_mod_cast Nat.pos_of_ne_zero h

/-- All shares of the descent are nonnegative. -/
theorem levSeq_nonneg (H : List HItem) (c : Nat) :
    ∀ (k x : Nat), 0 ≤ levSeq H c k x
  | 0, x => by
    unfold levSeq spreadIter delta
    split <;> norm_num
  | k + 1, x => by
    rw [levSeq_succ, spread_eq_spreadSpec]
    unfold spreadSpec
    apply Finset.sum_nonneg
    intro j _
    apply div_nonneg
    · exact mul_nonneg (levSeq_nonneg H c k j) (by positivity)
    · exact le_of_lt (odiv_pos H x)

/-- A rank function exhibiting the hierarchy as a DAG whose descendant
pointers go strictly down and stay in range (spec invariant I3: descendants
point one level below their owner). -/
def Ranked (H : List HItem) (rk : Nat → Nat) : Prop :=
  ∀ j < H.length, ∀ d ∈ desL H j, d < H.length ∧ rk d < rk j

/-- A nonzero share after `k` iterations sits in range, at rank at least `k`
below the start cluster's. -/
theorem levSeq_reach (H : List HItem) (rk : Nat → Nat) (c : Nat)
    (hR : Ranked H rk) (hc : c < H.length) :
    ∀ (k x : Nat), levSeq H c k x ≠ 0 → x < H.length ∧ rk x + k ≤ rk c
  | 0, x, hx => by
    unfold levSeq spreadIter delta at hx
    by_cases hxc : x = c
    · subst hxc
      exact ⟨hc, by omega⟩
    · rw [if_neg hxc] at hx
      exact absurd rfl hx
  | k + 1, x, hx => by
    rw [levSeq_succ, spread_eq_spreadSpec] at hx
    unfold spreadSpec at hx
    obtain ⟨j, hjmem, hj⟩ := Finset.exists_ne_zero_of_sum_ne_zero hx
    have hj1 : levSeq H c k j ≠ 0 := by
      intro h0
      apply hj
      rw [h0]
      simp
    have hcnt : (desL H j).count x ≠ 0 := by
      intro h0
      apply hj
      rw [h0]
      simp
    have hxmem : x ∈ desL H j := by
      by_contra hno
      exact hcnt (List.count_eq_zero.mpr hno)
    obtain ⟨hxn, hrk⟩ := hR j (Finset.mem_range.mp hjmem) x hxmem
    obtain ⟨_, hjk⟩ := levSeq_reach H rk c hR hc k j hj1
    exact ⟨hxn, by omega⟩

/-- Total share an item ever carries during the first `fuel` levels of the
descent from `c`. -/
def totShare (H : List HItem) (c fuel x : Nat) : ℚ :=
  ∑ k ∈ Finset.range fuel, levSeq H c k x

/-- How many parents list item `x` among their descendants, occurrences
counted. -/
def parentMult (H : List HItem) (x : Nat) : Nat :=
  ∑ j ∈ Finset.range H.length, (desL H j).count x

/-- The total share any item ever carries is at most 1, provided the
hierarchy is ranked and each item's parent multiplicity is covered by its
owner count (spec invariant I4: every parent is listed among its
descendant's owners). -/
theorem totShare_le_one (H : List HItem) (rk : Nat → Nat) (c fuel : Nat)
    (hR : Ranked H rk) (hc : c < H.length)
    (hpar : ∀ x < H.length, ((parentMult H x : ℚ)) ≤ odiv H x) :
    ∀ (m x : Nat), rk c ≤ rk x + m → totShare H c fuel x ≤ 1
  | 0, x, hle => by
    by_cases hxc : x = c
    · cases fuel with
      | zero => simp [totShare]
      | succ f =>
        unfold totShare
        rw [Finset.sum_eq_single 0]
        · have h1 : levSeq H c 0 x = 1 := by simp [levSeq, spreadIter, delta, hxc]
          rw [h1]
        · intro b _ hb0
          by_contra hne
          obtain ⟨_, hrk⟩ := levSeq_reach H rk c hR hc b x hne
          omega
        · intro h0
          exact absurd (Finset.mem_range.mpr (by omega)) h0
    · unfold totShare
      rw [Finset.sum_eq_zero]
      · norm_num
      · intro k _
        by_contra hne
        obtain ⟨_, hrk⟩ := levSeq_reach H rk c hR hc k x hne
        have hk0 : k = 0 := by omega
        subst hk0
        apply hxc
        unfold levSeq spreadIter delta at hne
        by_cases h : x = c
        · exact h
        · rw [if_neg h] at hne
          exact absurd rfl hne
  | m + 1, x, hle => by
    by_cases hred : rk c ≤ rk x + m
    · exact totShare_le_one H rk c fuel hR hc hpar m x hred
    · have heq : rk c = rk x + m + 1 := by omega
      have hxc : x ≠ c := by
        intro h
        subst h
        omega
      by_cases hxn : x < H.length
      · cases fuel with
        | zero => simp [totShare]
        | succ f =>
          unfold totShare
          rw [Finset.sum_range_succ']
          have h0 : levSeq H c 0 x = 0 := by
            simp [levSeq, spreadIter, delta, hxc]
          rw [h0, add_zero]
          have hterm : ∀ k, levSeq H c (k + 1) x
              = ∑ j ∈ Finset.range H.length,
                  levSeq H c k j * ((desL H j).count x : ℚ) / odiv H x := by
            intro k
            rw [levSeq_succ, spread_eq_spreadSpec]
            rfl
          rw [Finset.sum_congr rfl (fun k _ => hterm k), Finset.sum_comm]
          have hbound : ∀ j ∈ Finset.range H.length,
              ∑ k ∈ Finset.range f,
                  levSeq H c k j * ((desL H j).count x : ℚ) / odiv H x
                ≤ ((desL H j).count x : ℚ) / odiv H x := by
            intro j hj
            have hrw : ∀ k, levSeq H c k j * ((desL H j).count x : ℚ) / odiv H x
                = levSeq H c k j * (((desL H j).count x : ℚ) / odiv H x) :=
              fun k => mul_div_assoc _ _ _
            rw [Finset.sum_congr rfl (fun k _ => hrw k), ← Finset.sum_mul]
            by_cases hcnt : (desL H j).count x = 0
            · rw [hcnt]
              simp
            · have hxmem : x ∈ desL H j := by
                by_contra hno
                exact hcnt (List.count_eq_zero.mpr hno)
              obtain ⟨_, hrkx⟩ := hR j (Finset.mem_range.mp hj) x hxmem
              have hIH : totShare H c (f + 1) j ≤ 1 :=
                totShare_le_one H rk c (f + 1) hR hc hpar m j (by omega)
              have hS : ∑ k ∈ Finset.range f, levSeq H c k j ≤ totShare H c (f + 1) j := by
                unfold totShare
                apply Finset.sum_le_sum_of_subset_of_nonneg
                · exact Finset.range_subset.mpr (by omega)
                · intro k _ _
                  exact levSeq_nonneg H c k j
              have hC : 0 ≤ ((desL H j).count x : ℚ) / odiv H x :=
                div_nonneg (by positivity) (le_of_lt (odiv_pos H x))
              calc (∑ k ∈ Finset.range f, levSeq H c k j)
                    * (((desL H j).count x : ℚ) / odiv H x)
                  ≤ 1 * (((desL H j).count x : ℚ) / odiv H x) :=
                    mul_le_mul_of_nonneg_right (le_trans hS hIH) hC
                _ = ((desL H j).count x : ℚ) / odiv H x := one_mul _
          calc ∑ j ∈ Finset.range H.length,
                ∑ k ∈ Finset.range f,
                  levSeq H c k j * ((desL H j).count x : ℚ) / odiv H x
              ≤ ∑ j ∈ Finset.range H.length, ((desL H j).count x : ℚ) / odiv H x :=
                Finset.sum_le_sum hbound
            _ = (∑ j ∈ Finset.range H.length, ((desL H j).count x : ℚ)) / odiv H x :=
                (Finset.sum_div _ _ _).symm
            _ = ((parentMult H x : ℚ)) / odiv H x := by
                unfold parentMult
                rw [Nat.cast_sum]
            _ ≤ 1 := (div_le_one (odiv_pos H x)).mpr (hpar x hxn)
      · unfold totShare
        rw [Finset.sum_eq_zero]
        · norm_num
        · intro k _
          by_contra hne
          cases k with
          | zero =>
            apply hxc
            unfold levSeq spreadIter delta at hne
            by_cases h : x = c
            · exact h
            · rw [if_neg h] at hne
              exact absurd rfl hne
          | succ k =>
            obtain ⟨hxn2, _⟩ := levSeq_reach H rk c hR hc (k + 1) x hne
            exact hxn hxn2

/-- Summing an occurrence count against weights over the index range equals
summing the weights along the list. -/
theorem count_mul_sum (n : Nat) (w : Nat → ℚ) :
    ∀ (D : List Nat), (∀ d ∈ D, d < n) →
      ∑ x ∈ Finset.range n, (D.count x : ℚ) * w x = (D.map w).sum
  | [], _ => by simp
  | d :: D, hD => by
    have hd : d < n := hD d (by simp)
    have ih := count_mul_sum n w D (fun e he => hD e (by simp [he]))
    have hsplit : ∀ x, ((d :: D).count x : ℚ) = (D.count x : ℚ) + (if x = d then 1 else 0) := by
      intro x
      by_cases hxd : x = d
      · subst hxd
        rw [List.count_cons_self]
        push_cast
        simp
      · rw [List.count_cons_of_ne hxd]
        simp [hxd]
    calc ∑ x ∈ Finset.range n, ((d :: D).count x : ℚ) * w x
        = ∑ x ∈ Finset.range n,
            ((D.count x : ℚ) * w x + (if x = d then 1 else 0) * w x) := by
          apply Finset.sum_congr rfl
          intro x _
          rw [hsplit x]
          ring
      _ = (∑ x ∈ Finset.range n, (D.count x : ℚ) * w x)
            + ∑ x ∈ Finset.range n, (if x = d then 1 else 0) * w x :=
          Finset.sum_add_distrib
      _ = (D.map w).sum + w d := by
          rw [ih]
          congr 1
          rw [Finset.sum_congr rfl
            (fun x _ => (ite_mul (x = d) 1 0 (w x)).trans (by rw [one_mul, zero_mul]))]
          rw [Finset.sum_ite_eq' (Finset.range n) d w]
          rw [if_pos (Finset.mem_range.mpr hd)]
      _ = ((d :: D).map w).sum := by
          rw [List.map_cons, List.sum_cons]
          ring

/-- A leaf has no descendant list. -/
theorem desL_of_leaf (H : List HItem) (j : Nat) (h : isLeafI H j = true) :
    desL H j = [] := by
  unfold isLeafI at h
  unfold desL
  cases hdes : (itemAt H j).des with
  | none => rfl
  | some D =>
    rw [hdes] at h
    simp at h

/-- A non-leaf has `des` set. -/
theorem des_isSome_of_not_leaf (H : List HItem) (j : Nat)
    (h : isLeafI H j = false) : (itemAt H j).des.isSome = true := by
  unfold isLeafI at h
  cases hdes : (itemAt H j).des with
  | none =>
    rw [hdes] at h
    simp at h
  | some D => rfl

/-- Share conservation of one spreading step: when every cluster's
descendants' reciprocal owner counts sum to 1, the spread step hands the
whole non-leaf mass down. -/
theorem spread_range_sum (H : List HItem)
    (hbounds : ∀ j < H.length, ∀ d ∈ desL H j, d < H.length)
    (hcov : ∀ j < H.length, (itemAt H j).des.isSome = true →
      ((desL H j).map (fun d => 1 / odiv H d)).sum = 1)
    (lev : Lev) :
    ∑ x ∈ Finset.range H.length, spread H lev x
      = ∑ j ∈ Finset.range H.length, (if isLeafI H j then 0 else lev j) := by
  rw [Finset.sum_congr rfl (fun x _ => congrFun (spread_eq_spreadSpec H lev) x)]
  unfold spreadSpec
  rw [Finset.sum_comm]
  apply Finset.sum_congr rfl
  intro j hj
  have hrw : ∀ x, lev j * ((desL H j).count x : ℚ) / odiv H x
      = lev j * (((desL H j).count x : ℚ) * (1 / odiv H x)) := by
    intro x
    rw [mul_div_assoc, div_eq_mul_one_div]
  rw [Finset.sum_congr rfl (fun x _ => hrw x), ← Finset.mul_sum]
  rw [count_mul_sum H.length (fun x => 1 / odiv H x) (desL H j)
    (hbounds j (Finset.mem_range.mp hj))]
  by_cases hleaf : isLeafI H j = true
  · rw [if_pos hleaf, desL_of_leaf H j hleaf]
    simp
  · rw [if_neg hleaf]
    rw [hcov j (Finset.mem_range.mp hj)
      (des_isSome_of_not_leaf H j (Bool.not_eq_true _ ▸ hleaf))]
    ring

/-- Amended claim C3.  On a hierarchy satisfying the spec's structural
invariants — descendants sit in range one rank down (I3) and each item's
parent multiplicity is covered by its owner count (I4) — every share
`unwrap` accumulates (starting from the empty result map) lies in `(0, 1]`.
The claimed total of 1 does not hold in general (see the counterexample):
it holds exactly for hierarchies whose clusters split their shares
coveringly, i.e. when every cluster's descendants' reciprocal owner counts
sum to 1, and the descent is run to exhaustion (any fuel above the start
cluster's rank). -/
theorem hirecs_claim_C3 (H : List HItem) (rk : Nat → Nat) (c fuel : Nat)
    (hR : Ranked H rk) (hc : c < H.length)
    (hpar : ∀ x < H.length, ((parentMult H x : ℚ)) ≤ odiv H x) :
    (∀ x, unwrapF H c fuel (fun _ => 0) x ≠ 0 →
        0 < unwrapF H c fuel (fun _ => 0) x ∧ unwrapF H c fuel (fun _ => 0) x ≤ 1)
    ∧ ((∀ j < H.length, (itemAt H j).des.isSome = true →
          ((desL H j).map (fun d => 1 / odiv H d)).sum = 1) →
        rk c + 1 ≤ fuel →
        ∑ x ∈ Finset.range H.length, unwrapF H c fuel (fun _ => 0) x = 1) := by
  have hform : ∀ x, unwrapF H c fuel (fun _ => 0) x
      = (if isLeafI H x then totShare H c fuel x else 0) := by
    intro x
    unfold unwrapF
    rw [unwrapSteps_apply]
    unfold totShare levSeq
    simp
  constructor
  · intro x hne
    rw [hform] at hne ⊢
    by_cases hleaf : isLeafI H x = true
    · rw [if_pos hleaf] at hne ⊢
      have hnn : 0 ≤ totShare H c fuel x :=
        Finset.sum_nonneg (fun k _ => levSeq_nonneg H c k x)
      exact ⟨lt_of_le_of_ne hnn (Ne.symm hne),
        totShare_le_one H rk c fuel hR hc hpar (rk c) x (by omega)⟩
    · rw [if_neg hleaf] at hne
      exact absurd rfl hne
  · intro hcov hfuel
    have hbounds : ∀ j < H.length, ∀ d ∈ desL H j, d < H.length :=
      fun j hj d hd => (hR j hj d hd).1
    have hstepsum : ∀ k : Nat,
        ∑ x ∈ Finset.range H.length, (if isLeafI H x then levSeq H c k x else 0)
          = (∑ x ∈ Finset.range H.length, levSeq H c k x)
            - ∑ x ∈ Finset.range H.length, levSeq H c (k + 1) x := by
      intro k
      have hnext : ∑ x ∈ Finset.range H.length, levSeq H c (k + 1) x
          = ∑ j ∈ Finset.range H.length, (if isLeafI H j then 0 else levSeq H c k j) := by
        rw [Finset.sum_congr rfl (fun x _ => congrFun (levSeq_succ H c k) x)]
        exact spread_range_sum H hbounds hcov (levSeq H c k)
      have hsplitk : ∑ x ∈ Finset.range H.length, levSeq H c k x
          = (∑ x ∈ Finset.range H.length, (if isLeafI H x then levSeq H c k x else 0))
            + ∑ x ∈ Finset.range H.length, (if isLeafI H x then 0 else levSeq H c k x) := by
        rw [← Finset.sum_add_distrib]
        apply Finset.sum_congr rfl
        intro x _
        by_cases hleaf : isLeafI H x = true
        · rw [if_pos hleaf, if_pos hleaf]
          ring
        · rw [if_neg hleaf, if_neg hleaf]
          ring
      rw [hnext, hsplitk]
      ring
    calc ∑ x ∈ Finset.range H.length, unwrapF H c fuel (fun _ => 0) x
        = ∑ x ∈ Finset.range H.length,
            (if isLeafI H x then totShare H c fuel x else 0) :=
          Finset.sum_congr rfl (fun x _ => hform x)
      _ = ∑ x ∈ Finset.range H.length,
            ∑ k ∈ Finset.range fuel, (if isLeafI H x then levSeq H c k x else 0) := by
          apply Finset.sum_congr rfl
          intro x _
          by_cases hleaf : isLeafI H x = true
          · rw [if_pos hleaf]
            unfold totShare
            exact Finset.sum_congr rfl (fun k _ => (if_pos hleaf).symm)
          · rw [if_neg hleaf]
            rw [Finset.sum_congr rfl (fun k _ => if_neg hleaf)]
            simp
      _ = ∑ k ∈ Finset.range fuel,
            ∑ x ∈ Finset.range H.length, (if isLeafI H x then levSeq H c k x else 0) :=
          Finset.sum_comm
      _ = ∑ k ∈ Finset.range fuel,
            ((∑ x ∈ Finset.range H.length, levSeq H c k x)
              - ∑ x ∈ Finset.range H.length, levSeq H c (k + 1) x) :=
          Finset.sum_congr rfl (fun k _ => hstepsum k)
      _ = (∑ x ∈ Finset.range H.length, levSeq H c 0 x)
            - ∑ x ∈ Finset.range H.length, levSeq H c fuel x :=
          Finset.sum_range_sub' (fun k => ∑ x ∈ Finset.range H.length, levSeq H c k x) fuel
      _ = 1 := by
          have hSL0 : ∑ x ∈ Finset.range H.length, levSeq H c 0 x = 1 := by
            have hd : ∀ x, levSeq H c 0 x = (if x = c then (1 : ℚ) else 0) := fun x => rfl
            rw [Finset.sum_congr rfl (fun x _ => hd x)]
            rw [Finset.sum_ite_eq' (Finset.range H.length) c (fun _ => (1 : ℚ))]
            rw [if_pos (Finset.mem_range.mpr hc)]
          have hSLf : ∑ x ∈ Finset.range H.length, levSeq H c fuel x = 0 := by
            apply Finset.sum_eq_zero
            intro x _
            by_contra hne
            obtain ⟨_, hrk⟩ := levSeq_reach H rk c hR hc fuel x hne
            omega
          rw [hSL0, hSLf]
          ring

/-- The hierarchy of scenario S3 of the spec, as the claim's sources cite
it: one root cluster (index 2) whose descendants are its sole node 0 and
the thrice-owned overlapping node 1 (the spec's node 2, member of three
root clusters). -/
def Hcex : List HItem := [⟨1, none⟩, ⟨3, none⟩, ⟨0, some [0, 1]⟩]

set_option maxRecDepth 4000 in
/-- Counterexample to claim C3 as stated: unwrapping the S3-shaped root
cluster gives its own node the share 1 and the thrice-owned node the share
1/3 — as the spec's scenario S3 itself expects — so the shares sum to 4/3,
not 1. -/
theorem hirecs_claim_C3_cex :
    unwrapF Hcex 2 2 (fun _ => 0) 0 = 1
    ∧ unwrapF Hcex 2 2 (fun _ => 0) 1 = 1 / 3
    ∧ (∑ x ∈ Finset.range Hcex.length, unwrapF Hcex 2 2 (fun _ => 0) x) ≠ 1 := by
  have h0 : unwrapF Hcex 2 2 (fun _ => 0) 0 = 1 := by
    simp [unwrapF, unwrapSteps, stepRes, spread, addDes, itemAt, isLeafI, delta, odiv, Hcex,
      desL, List.range_succ]
  have h1 : unwrapF Hcex 2 2 (fun _ => 0) 1 = 1 / 3 := by
    simp [unwrapF, unwrapSteps, stepRes, spread, addDes, itemAt, isLeafI, delta, odiv, Hcex,
      desL, List.range_succ]
  have h2 : unwrapF Hcex 2 2 (fun _ => 0) 2 = 0 := by
    simp [unwrapF, unwrapSteps, stepRes, spread, addDes, itemAt, isLeafI, delta, odiv, Hcex,
      desL, List.range_succ]
  refine ⟨h0, h1, ?_⟩
  rw [show Hcex.length = 3 from rfl, Finset.sum_range_succ, Finset.sum_range_succ,
    Finset.sum_range_succ, Finset.sum_range_zero, h0, h1, h2]
  norm_num

/-- A small covering hierarchy for the C3 witness: a root cluster (index 2)
with two descendants, each owned by two clusters. -/
def Hw : List HItem := [⟨2, none⟩, ⟨2, none⟩, ⟨0, some [0, 1]⟩]

/-- Rank function for `Hw`. -/
def rkW : Nat → Nat := fun j => if j = 2 then 1 else 0

set_option maxRecDepth 4000 in
/-- Witness for the amended claim C3 on `Hw`: every share is in `(0, 1]`,
and — the owner splits being covering — the shares sum to 1. -/
theorem hirecs_claim_C3_witness :
    (∀ x, unwrapF Hw 2 2 (fun _ => 0) x ≠ 0 →
        0 < unwrapF Hw 2 2 (fun _ => 0) x ∧ unwrapF Hw 2 2 (fun _ => 0) x ≤ 1)
    ∧ (∑ x ∈ Finset.range Hw.length, unwrapF Hw 2 2 (fun _ => 0) x) = 1 := by
  have h := hirecs_claim_C3 Hw rkW 2 2 (by unfold Ranked; decide) (by decide)
    (by unfold parentMult; decide)
  refine ⟨h.1, h.2 ?_ (by decide)⟩
  intro j hj hsome
  have hj3 : j < 3 := by simpa using hj
  interval_cases j
  · simp [itemAt, Hw] at hsome
  · simp [itemAt, Hw] at hsome
  · simp [desL, itemAt, Hw, odiv]
    norm_num

end Hirecs
